import Mathlib

/-!
# glacier `cron` package: job registry over a scheduler engine

A shallow embedding of `cron/cron.go`.

* `cronManager` is the registry: the `jobs` map, the engine `cr`, the optional
  `distributeLockManager` and the container `cc`.  The `sync.RWMutex` only
  serialises the operations, which are therefore modelled as atomic functions
  from a state to a state and a returned error.
* The engine (`github.com/robfig/cron/v3`) and the schedule parser are external
  libraries.  The engine is modelled from its interface (`AddFunc`, `Remove`);
  the parser is a parameter.
* The closure `jobHandler` built by `Add` captures `c`, `name` and `handler`;
  it is modelled by the record of the captured values, and running it takes
  the current manager as an argument (the closure reads
  `c.distributeLockManager` when it fires, not when it is built).
-/

set_option linter.unusedSectionVars false
set_option linter.unusedVariables false

namespace cron

/-! ## External collaborators -/

/-- An instant (`time.Time`), as a count of milliseconds. -/
abbrev Time := Nat

/-- The type `cron.EntryID` (a Go `int`); the zero value stands for "no entry". -/
abbrev EntryID := Nat

/-- A parsed schedule (`cron.Schedule`): its `Next` method. -/
abbrev Schedule := Time → Time

/-- A schedule parser (`cron.Parser.Parse`): a schedule or a parse error. -/
abbrev Parser := String → Except String Schedule

/-- Modelled from the spec: an engine entry (`cron.Entry`, external library):
its id, the schedule text it was added with, and its action. -/
structure Entry (A : Type) where
  id : EntryID
  spec : String
  action : A
deriving DecidableEq, Repr

/-- A call received by the engine, kept as history so that theorems can say
which calls an operation of the registry made. -/
inductive Call (A : Type) where
  | addFunc (spec : String) (cmd : A)
  | remove (id : EntryID)
deriving DecidableEq, Repr

/-- Modelled from the spec: the Scheduler Engine (`cron.Cron`, external
library): the live entries, the id counter, and the history of calls. -/
structure Cron (A : Type) where
  entries : List (Entry A)
  nextID : EntryID
  calls : List (Call A)
deriving DecidableEq, Repr

/-- Modelled from the spec: a fresh engine, with no entry and the counter at 0. -/
def Cron.new (A : Type) : Cron A :=
  { entries := [], nextID := 0, calls := [] }

/-- Modelled from the spec: `AddFunc(spec, cmd)` parses `spec`; on a parse error
nothing is inserted; otherwise the counter is incremented and an entry with
the new id is appended. -/
def Cron.AddFunc {A : Type} (parse : Parser) (c : Cron A) (spec : String) (cmd : A) :
    Cron A × Except String EntryID :=
  match parse spec with
  | .error err =>
    ({ c with calls := c.calls ++ [Call.addFunc spec cmd] }, .error err)
  | .ok _ =>
    let id := c.nextID + 1
    ({ entries := c.entries ++ [{ id := id, spec := spec, action := cmd }],
       nextID := id,
       calls := c.calls ++ [Call.addFunc spec cmd] }, .ok id)

/-- Modelled from the spec: `Remove(id)` deletes the entry with that id, and is a
no-op when there is none. -/
def Cron.Remove {A : Type} (c : Cron A) (id : EntryID) : Cron A :=
  { c with entries := c.entries.filter (fun e => e.id != id),
           calls := c.calls ++ [Call.remove id] }

/-- The interface `DistributeLockManager`, reduced to what `HasLock()` currently
returns. -/
structure DistributeLockManager where
  HasLock : Bool
deriving DecidableEq, Repr

/-! ## Data model -/

/-- The closure `jobHandler` of `Add`, as the values it captures. -/
structure JobHandler (H : Type) where
  name : String
  handler : H
deriving DecidableEq, Repr

/-- The struct `Job`. -/
structure Job (H : Type) where
  ID : EntryID
  Name : String
  Plan : String
  handler : JobHandler H
  Paused : Bool
deriving DecidableEq, Repr

/-- The struct `cronManager`; `cc` is the container, of which only
`ResolveWithError` on a handler is used. -/
structure cronManager (H : Type) where
  cc : H → Option String
  cr : Cron (JobHandler H)
  distributeLockManager : Option DistributeLockManager
  jobs : String → Option (Job H)

/-- The errors returned by the registry operations. -/
inductive Error where
  /-- The error `job with name [%s] has existed: %d | %s`. -/
  | existed (name : String) (id : EntryID) (plan : String)
  /-- The error `job with name [%s] not found`. -/
  | notFound (name : String)
  /-- The wrapped error `add cron job failed`. -/
  | addFailed (cause : String)
  /-- The wrapped error `change job from paused to continue failed`. -/
  | continueFailed (cause : String)
deriving DecidableEq, Repr

/-! ## Operations -/

variable {H : Type} [DecidableEq H]

/-- The map write `c.jobs[name] = job`. -/
def setJob (jobs : String → Option (Job H)) (name : String) (job : Job H) :
    String → Option (Job H) :=
  fun k => if k = name then some job else jobs k

/-- The map deletion `delete(c.jobs, name)`. -/
def deleteJob (jobs : String → Option (Job H)) (name : String) :
    String → Option (Job H) :=
  fun k => if k = name then none else jobs k

/-- The function `NewManager`: an empty registry; `cr` is the engine resolved
from the container. -/
def NewManager (cc : H → Option String) (cr : Cron (JobHandler H)) : cronManager H :=
  { cc := cc, cr := cr, distributeLockManager := none, jobs := fun _ => none }

/-- The setter `cronManager.DistributeLockManager`. -/
def cronManager.DistributeLockManager (c : cronManager H)
    (lockManager : Option DistributeLockManager) : cronManager H :=
  { c with distributeLockManager := lockManager }

/-- The method `cronManager.Add`. -/
def cronManager.Add (parse : Parser) (c : cronManager H) (name plan : String) (handler : H) :
    cronManager H × Option Error :=
  match c.jobs name with
  | some reg => (c, some (Error.existed name reg.ID reg.Plan))
  | none =>
    let jobHandler : JobHandler H := { name := name, handler := handler }
    match c.cr.AddFunc parse plan jobHandler with
    | (cr, .error err) => ({ c with cr := cr }, some (Error.addFailed err))
    | (cr, .ok id) =>
      ({ c with
          cr := cr,
          jobs := setJob c.jobs name
            { ID := id, Name := name, Plan := plan, handler := jobHandler, Paused := false } },
        none)

/-- The method `cronManager.Remove`. -/
def cronManager.Remove (c : cronManager H) (name : String) : cronManager H × Option Error :=
  match c.jobs name with
  | none => (c, some (Error.notFound name))
  | some reg =>
    let jobs := deleteJob c.jobs name
    if !reg.Paused then
      ({ c with jobs := jobs, cr := c.cr.Remove reg.ID }, none)
    else
      ({ c with jobs := jobs }, none)

/-- The method `cronManager.Pause`. -/
def cronManager.Pause (c : cronManager H) (name : String) : cronManager H × Option Error :=
  match c.jobs name with
  | none => (c, some (Error.notFound name))
  | some reg =>
    if reg.Paused then
      (c, none)
    else
      ({ c with cr := c.cr.Remove reg.ID,
                jobs := setJob c.jobs name { reg with Paused := true } }, none)

/-- The method `cronManager.Continue`. -/
def cronManager.Continue (parse : Parser) (c : cronManager H) (name : String) :
    cronManager H × Option Error :=
  match c.jobs name with
  | none => (c, some (Error.notFound name))
  | some reg =>
    if !reg.Paused then
      (c, none)
    else
      match c.cr.AddFunc parse reg.Plan reg.handler with
      | (cr, .error err) => ({ c with cr := cr }, some (Error.continueFailed err))
      | (cr, .ok id) =>
        ({ c with cr := cr,
                  jobs := setJob c.jobs name { reg with Paused := false, ID := id } }, none)

/-- The method `cronManager.Info`. -/
def cronManager.Info (c : cronManager H) (name : String) : Except Error (Job H) :=
  match c.jobs name with
  | some job => .ok job
  | none => .error (Error.notFound name)

/-! ## `Job.Next` -/

/-- The outcome of `Job.Next`: the instants, the parse error, or the run-time
panic of `make` on a negative length. -/
inductive NextResult where
  | ok (results : List Time)
  | err (e : String)
  | panicked
deriving DecidableEq, Repr

/-- The loop of `Job.Next`: `k` iterations from `lastTs`, each one advancing
`lastTs` with `sc.Next` and storing it. -/
def nextLoop (sc : Schedule) : Nat → Time → List Time
  | 0, _ => []
  | k + 1, lastTs => sc lastTs :: nextLoop sc k (sc lastTs)

/-- The method `Job.Next`; `parser` is the six-field parser it builds and `now`
is what `time.Now()` returns. -/
def Job.Next (parser : Parser) (now : Time) (job : Job H) (nextNum : Int) : NextResult :=
  match parser job.Plan with
  | .error err => .err err
  | .ok sc =>
    if nextNum < 0 then .panicked
    else .ok (nextLoop sc nextNum.toNat now)

/-! ## The wrapped handler -/

/-- The two loggers of the package: the global `log` and the module `logger`. -/
inductive Logger where
  | global
  | module
deriving DecidableEq, Repr

/-- Log levels used by the wrapped handler. -/
inductive Level where
  | debug
  | error
deriving DecidableEq, Repr

/-- An argument of a log call. -/
inductive LogArg where
  | str (s : String)
  | err (e : String)
  | elapsed (d : Int)
  | stack (s : String)
deriving DecidableEq, Repr

/-- What a firing of the wrapped handler does to the outside: log calls and
invocations of the user handler through the container. -/
inductive Event (H : Type) where
  | log (logger : Logger) (level : Level) (format : String) (args : List LogArg)
  | invoke (handler : H)
deriving DecidableEq, Repr

/-- The guard `c.distributeLockManager != nil && !c.distributeLockManager.HasLock()`
of the closure. -/
def cronManager.lockedOut (c : cronManager H) : Bool :=
  match c.distributeLockManager with
  | none => false
  | some m => !m.HasLock

/-- The body of the closure `jobHandler`; `startTs` and `stopTs` are the two
readings of `time.Now()` and `stack` is what `debug.Stack()` returns. -/
def JobHandler.run (c : cronManager H) (startTs stopTs : Time) (stack : String)
    (w : JobHandler H) : List (Event H) :=
  if c.lockedOut then
    [Event.log Logger.global Level.debug
      "cron job [%s] can not start because it doesn't get the lock" [LogArg.str w.name]]
  else
    let running := Event.log Logger.module Level.debug "cron job [%s] running" [LogArg.str w.name]
    let stopped := Event.log Logger.module Level.debug "cron job [%s] stopped, elapse %s"
      [LogArg.str w.name, LogArg.elapsed ((stopTs : Int) - (startTs : Int))]
    match c.cc w.handler with
    | some err =>
      [running, Event.invoke w.handler,
       Event.log Logger.module Level.error "cron job [%s] failed, Err: %v, Stack: %s"
         [LogArg.err err, LogArg.stack stack],
       stopped]
    | none => [running, Event.invoke w.handler, stopped]

/-- Whether an event is an invocation of a user handler. -/
def Event.isInvoke : Event H → Bool
  | .invoke _ => true
  | .log _ _ _ _ => false

/-- One firing by the engine: the closure that is run, the two readings of the
clock and the stack text. -/
structure Firing (H : Type) where
  w : JobHandler H
  startTs : Time
  stopTs : Time
  stack : String

/-- The effect of one firing on the manager and on the trace of events: the
closure writes to no field of the manager and appends its events. -/
def fire (s : cronManager H × List (Event H)) (f : Firing H) :
    cronManager H × List (Event H) :=
  (s.1, s.2 ++ f.w.run s.1 f.startTs f.stopTs f.stack)

/-! ## Reachable states -/

/-- A call of one of the operations that change the manager. -/
inductive Op (H : Type) where
  | Add (name plan : String) (handler : H)
  | Remove (name : String)
  | Pause (name : String)
  | Continue (name : String)
  | DistributeLockManager (lockManager : Option DistributeLockManager)

/-- The state after one call, whatever it returned. -/
def step (parse : Parser) (c : cronManager H) : Op H → cronManager H
  | .Add name plan handler => (c.Add parse name plan handler).1
  | .Remove name => (c.Remove name).1
  | .Pause name => (c.Pause name).1
  | .Continue name => (c.Continue parse name).1
  | .DistributeLockManager lockManager => c.DistributeLockManager lockManager

/-- The state after a sequence of calls. -/
def runOps (parse : Parser) (c : cronManager H) (ops : List (Op H)) : cronManager H :=
  ops.foldl (step parse) c

/-- States reachable from a new manager over a fresh engine. -/
inductive Reachable (parse : Parser) : cronManager H → Prop where
  | new (cc : H → Option String) : Reachable parse (NewManager cc (Cron.new (JobHandler H)))
  | step {c : cronManager H} (op : Op H) : Reachable parse c → Reachable parse (step parse c op)

/-- The invariant of the reachable states: every registered job is filed under
its own name, carries the closure built for that name, a plan the engine
parser accepts and an id the engine has issued; entry ids are issued and
pairwise distinct; the entries are exactly the entries of the jobs that are
not paused. -/
structure Inv (parse : Parser) (c : cronManager H) : Prop where
  job_wf : ∀ n j, c.jobs n = some j →
    j.Name = n ∧ j.handler.name = n ∧ (∃ sc, parse j.Plan = .ok sc) ∧
      0 < j.ID ∧ j.ID ≤ c.cr.nextID
  entry_le : ∀ e ∈ c.cr.entries, e.id ≤ c.cr.nextID
  ids_nodup : (c.cr.entries.map Entry.id).Nodup
  entry_job : ∀ e ∈ c.cr.entries, ∃ j, c.jobs e.action.name = some j ∧
    j.Paused = false ∧ j.ID = e.id ∧ j.handler = e.action ∧ j.Plan = e.spec
  job_entry : ∀ n j, c.jobs n = some j → j.Paused = false →
    ∃ e ∈ c.cr.entries, e.id = j.ID ∧ e.action = j.handler

/-! ## A sample parser, for concrete scenarios -/

/-- Modelled from the spec: the schedule of `0 0 * * * *`: the first top of an
hour strictly after `t`. -/
def hourly : Schedule := fun t => (t / 3600000 + 1) * 3600000

/-- Modelled from the spec: a parser that knows three schedule texts,
`0 0 * * * *` (the top of every hour), `@every 1s` and `@every 100ms`, and
rejects every other text. -/
def sampleParse : Parser := fun spec =>
  if spec = "0 0 * * * *" then .ok hourly
  else if spec = "@every 1s" then .ok (fun t => t + 1000)
  else if spec = "@every 100ms" then .ok (fun t => t + 100)
  else .error ("unrecognized schedule: " ++ spec)

/-- A new manager over a fresh engine, with handlers named by numbers; handler
`0` succeeds and every other handler fails with the error `boom`. -/
def m0 : cronManager Nat :=
  NewManager (fun h => if h = 0 then none else some "boom") (Cron.new (JobHandler Nat))

/-- The manager `m0` after `Add("a", "@every 100ms", h)` with `h` the handler `0`. -/
def mA : cronManager Nat := (m0.Add sampleParse "a" "@every 100ms" 0).1

/-- The job that `mA` holds under the name `a`. -/
def jobA : Job Nat :=
  { ID := 1, Name := "a", Plan := "@every 100ms",
    handler := { name := "a", handler := 0 }, Paused := false }

/-- The manager `mA` after `Pause("a")`. -/
def mAP : cronManager Nat := (mA.Pause "a").1

/-- The job that `mAP` holds under the name `a`: paused, with the id it had. -/
def jobAP : Job Nat := { jobA with Paused := true }

/-- The manager `mA` after `Add("b", "@every 1s", h)` with `h` the handler `1`,
which fails with `boom`. -/
def mB : cronManager Nat := (mA.Add sampleParse "b" "@every 1s" 1).1

/-- The manager `mB` with a lock manager that does not hold the lock. -/
def mBL : cronManager Nat := mB.DistributeLockManager (some { HasLock := false })

/-- A job with the hourly plan. -/
def jobH : Job Nat :=
  { ID := 1, Name := "h", Plan := "0 0 * * * *",
    handler := { name := "h", handler := 0 }, Paused := false }

/-- The manager `m0` after `Add("j", "@every 1s", h)` and `Pause("j")`. -/
def mJP : cronManager Nat :=
  runOps sampleParse m0 [Op.Add "j" "@every 1s" 0, Op.Pause "j"]

/-- The job that `mJP` holds under the name `j`. -/
def jobJP : Job Nat :=
  { ID := 1, Name := "j", Plan := "@every 1s",
    handler := { name := "j", handler := 0 }, Paused := true }

/-! ## Theorems -/

/-! ### The invariant holds in every reachable state -/

theorem Inv_new (parse : Parser) (cc : H → Option String) :
    Inv parse (NewManager cc (Cron.new (JobHandler H))) := by
  constructor <;> simp [NewManager, Cron.new]

theorem Inv_of_same (parse : Parser) {c d : cronManager H} (hc : Inv parse c)
    (hj : d.jobs = c.jobs) (he : d.cr.entries = c.cr.entries)
    (hn : d.cr.nextID = c.cr.nextID) : Inv parse d := by
  constructor
  · rw [hj, hn]; exact hc.job_wf
  · rw [he, hn]; exact hc.entry_le
  · rw [he]; exact hc.ids_nodup
  · rw [he, hj]; exact hc.entry_job
  · rw [he, hj]; exact hc.job_entry

theorem entry_eq_of_id {A : Type} {l : List (Entry A)} (hl : (l.map Entry.id).Nodup)
    {e f : Entry A} (he : e ∈ l) (hf : f ∈ l) (h : e.id = f.id) : e = f :=
  List.inj_on_of_nodup_map hl he hf h

/-- Adding a fresh entry for the name `n`, which no live entry belongs to. -/
theorem Inv_insert (parse : Parser) {c : cronManager H} (hc : Inv parse c) (n : String)
    (job : Job H) (sc : Schedule)
    (hfree : ∀ e ∈ c.cr.entries, e.action.name ≠ n)
    (hname : job.Name = n) (hh : job.handler.name = n) (hplan : parse job.Plan = .ok sc)
    (hid : job.ID = c.cr.nextID + 1) (hp : job.Paused = false)
    {d : cronManager H}
    (hj : d.jobs = setJob c.jobs n job)
    (he : d.cr.entries =
      c.cr.entries ++ [{ id := c.cr.nextID + 1, spec := job.Plan, action := job.handler }])
    (hn : d.cr.nextID = c.cr.nextID + 1) : Inv parse d := by
  constructor
  · intro k j hk
    rw [hj] at hk
    rw [hn]
    by_cases hkn : k = n
    · simp [setJob, hkn] at hk
      subst hk
      exact ⟨by rw [hkn, hname], by rw [hkn, hh], ⟨sc, hplan⟩, by unfold EntryID at *; omega, by unfold EntryID at *; omega⟩
    · simp [setJob, hkn] at hk
      obtain ⟨h1, h2, h3, h4, h5⟩ := hc.job_wf k j hk
      exact ⟨h1, h2, h3, h4, by unfold EntryID at *; omega⟩
  · intro e hmem
    rw [he] at hmem
    rw [hn]
    rcases List.mem_append.1 hmem with h | h
    · have := hc.entry_le e h
      unfold EntryID at *
      omega
    · simp at h
      subst h
      simp
  · rw [he]
    simp only [List.map_append, List.map_cons, List.map_nil]
    refine List.Nodup.append hc.ids_nodup (List.nodup_singleton _) ?_
    intro x hx hx2
    simp at hx2
    subst hx2
    obtain ⟨e, hmem, hxe⟩ := List.mem_map.1 hx
    have := hc.entry_le e hmem
    unfold EntryID at *
    omega
  · intro e hmem
    rw [he] at hmem
    rw [hj]
    rcases List.mem_append.1 hmem with h | h
    · obtain ⟨j, h1, h2⟩ := hc.entry_job e h
      refine ⟨j, ?_, h2⟩
      simp [setJob, hfree e h, h1]
    · simp at h
      subst h
      refine ⟨job, ?_, hp, hid, rfl, rfl⟩
      simp [setJob, hh]
  · intro k j hk hpj
    rw [hj] at hk
    rw [he]
    by_cases hkn : k = n
    · simp [setJob, hkn] at hk
      subst hk
      exact ⟨_, List.mem_append_right _ (List.mem_singleton_self _), hid.symm, rfl⟩
    · simp [setJob, hkn] at hk
      obtain ⟨e, h1, h2⟩ := hc.job_entry k j hk hpj
      exact ⟨e, List.mem_append_left _ h1, h2⟩

/-- Taking the entry of the job `j`, filed under `n` and not paused, out of the
engine, while the job is deleted or marked paused. -/
theorem Inv_drop (parse : Parser) {c : cronManager H} (hc : Inv parse c) (n : String)
    (j : Job H) (hj : c.jobs n = some j) (hp : j.Paused = false) {d : cronManager H}
    (hother : ∀ k, k ≠ n → d.jobs k = c.jobs k)
    (hself : ∀ j2, d.jobs n = some j2 → j2 = { j with Paused := true })
    (he : d.cr.entries = c.cr.entries.filter (fun e => e.id != j.ID))
    (hn : d.cr.nextID = c.cr.nextID) : Inv parse d := by
  have hsub : ∀ e, e ∈ d.cr.entries → e ∈ c.cr.entries ∧ e.id ≠ j.ID := by
    intro e hmem
    rw [he] at hmem
    simpa using hmem
  have hfree : ∀ e, e ∈ d.cr.entries → e.action.name ≠ n := by
    intro e hmem hname
    obtain ⟨h1, h2⟩ := hsub e hmem
    obtain ⟨j2, h3, _, h5, _⟩ := hc.entry_job e h1
    rw [hname, hj] at h3
    simp at h3
    subst h3
    exact h2 h5.symm
  constructor
  · intro k j2 hk
    rw [hn]
    by_cases hkn : k = n
    · subst hkn
      have := hself j2 hk
      subst this
      exact hc.job_wf k j hj
    · rw [hother k hkn] at hk
      exact hc.job_wf k j2 hk
  · intro e hmem
    rw [hn]
    exact hc.entry_le e (hsub e hmem).1
  · rw [he]
    exact List.Nodup.sublist (List.Sublist.map _ (List.filter_sublist _)) hc.ids_nodup
  · intro e hmem
    rw [hother _ (hfree e hmem)]
    exact hc.entry_job e (hsub e hmem).1
  · intro k j2 hk hp2
    by_cases hkn : k = n
    · subst hkn
      have := hself j2 hk
      subst this
      simp at hp2
    · rw [hother k hkn] at hk
      obtain ⟨e, h1, h2, h3⟩ := hc.job_entry k j2 hk hp2
      refine ⟨e, ?_, h2, h3⟩
      rw [he]
      simp only [List.mem_filter, bne_iff_ne, ne_eq]
      refine ⟨h1, ?_⟩
      intro hid
      obtain ⟨f, g1, g2, g3⟩ := hc.job_entry n j hj hp
      have hef : e = f := entry_eq_of_id hc.ids_nodup h1 g1 (hid.trans g2.symm)
      have hh : j2.handler = j.handler := by rw [← h3, ← g3, hef]
      have a1 := (hc.job_wf k j2 hk).2.1
      have a2 := (hc.job_wf n j hj).2.1
      rw [hh, a2] at a1
      exact hkn a1.symm

/-- Deleting a paused job, which has no entry in the engine. -/
theorem Inv_delete_paused (parse : Parser) {c : cronManager H} (hc : Inv parse c)
    (n : String) (j : Job H) (hj : c.jobs n = some j) (hp : j.Paused = true)
    {d : cronManager H} (hjobs : d.jobs = deleteJob c.jobs n)
    (he : d.cr.entries = c.cr.entries) (hn : d.cr.nextID = c.cr.nextID) : Inv parse d := by
  have hfree : ∀ e, e ∈ c.cr.entries → e.action.name ≠ n := by
    intro e hmem hname
    obtain ⟨j2, h3, h4, _⟩ := hc.entry_job e hmem
    rw [hname, hj] at h3
    simp at h3
    subst h3
    rw [hp] at h4
    simp at h4
  constructor
  · intro k j2 hk
    rw [hn]
    rw [hjobs] at hk
    by_cases hkn : k = n
    · simp [deleteJob, hkn] at hk
    · simp [deleteJob, hkn] at hk
      exact hc.job_wf k j2 hk
  · rw [he, hn]; exact hc.entry_le
  · rw [he]; exact hc.ids_nodup
  · intro e hmem
    rw [he] at hmem
    rw [hjobs]
    simp only [deleteJob, hfree e hmem, if_false]
    exact hc.entry_job e hmem
  · intro k j2 hk hp2
    rw [hjobs] at hk
    rw [he]
    by_cases hkn : k = n
    · simp [deleteJob, hkn] at hk
    · simp [deleteJob, hkn] at hk
      exact hc.job_entry k j2 hk hp2

theorem Inv_Add (parse : Parser) {c : cronManager H} (hc : Inv parse c) (n p : String)
    (h : H) : Inv parse (c.Add parse n p h).1 := by
  cases hn : c.jobs n with
  | some reg => simpa [cronManager.Add, hn] using hc
  | none =>
    cases hq : parse p with
    | error err =>
      exact Inv_of_same parse hc (by simp [cronManager.Add, Cron.AddFunc, hn, hq])
        (by simp [cronManager.Add, Cron.AddFunc, hn, hq])
        (by simp [cronManager.Add, Cron.AddFunc, hn, hq])
    | ok sc =>
      refine Inv_insert parse hc n
        { ID := c.cr.nextID + 1, Name := n, Plan := p,
          handler := { name := n, handler := h }, Paused := false } sc ?_ rfl rfl hq rfl rfl
        (by simp [cronManager.Add, Cron.AddFunc, hn, hq])
        (by simp [cronManager.Add, Cron.AddFunc, hn, hq])
        (by simp [cronManager.Add, Cron.AddFunc, hn, hq])
      intro e hmem hname
      obtain ⟨j2, h3, _⟩ := hc.entry_job e hmem
      rw [hname, hn] at h3
      simp at h3

theorem Inv_Remove (parse : Parser) {c : cronManager H} (hc : Inv parse c) (n : String) :
    Inv parse (c.Remove n).1 := by
  cases hn : c.jobs n with
  | none => simpa [cronManager.Remove, hn] using hc
  | some reg =>
    cases hp : reg.Paused with
    | true =>
      exact Inv_delete_paused parse hc n reg hn hp
        (by simp [cronManager.Remove, hn, hp])
        (by simp [cronManager.Remove, hn, hp])
        (by simp [cronManager.Remove, hn, hp])
    | false =>
      refine Inv_drop parse hc n reg hn hp ?_ ?_
        (by simp [cronManager.Remove, Cron.Remove, hn, hp])
        (by simp [cronManager.Remove, Cron.Remove, hn, hp])
      · intro k hk
        simp [cronManager.Remove, deleteJob, hn, hp, hk]
      · intro j2
        simp [cronManager.Remove, deleteJob, hn, hp]

theorem Inv_Pause (parse : Parser) {c : cronManager H} (hc : Inv parse c) (n : String) :
    Inv parse (c.Pause n).1 := by
  cases hn : c.jobs n with
  | none => simpa [cronManager.Pause, hn] using hc
  | some reg =>
    cases hp : reg.Paused with
    | true => simpa [cronManager.Pause, hn, hp] using hc
    | false =>
      refine Inv_drop parse hc n reg hn hp ?_ ?_
        (by simp [cronManager.Pause, Cron.Remove, hn, hp])
        (by simp [cronManager.Pause, Cron.Remove, hn, hp])
      · intro k hk
        simp [cronManager.Pause, setJob, hn, hp, hk]
      · intro j2
        intro h2
        simp [cronManager.Pause, setJob, hn, hp] at h2
        exact h2.symm

theorem Inv_Continue (parse : Parser) {c : cronManager H} (hc : Inv parse c) (n : String) :
    Inv parse (c.Continue parse n).1 := by
  cases hn : c.jobs n with
  | none => simpa [cronManager.Continue, hn] using hc
  | some reg =>
    cases hp : reg.Paused with
    | false => simpa [cronManager.Continue, hn, hp] using hc
    | true =>
      obtain ⟨w1, w2, ⟨sc, hq⟩, _, _⟩ := hc.job_wf n reg hn
      refine Inv_insert parse hc n { reg with Paused := false, ID := c.cr.nextID + 1 } sc
        ?_ w1 w2 hq rfl rfl
        (by simp [cronManager.Continue, Cron.AddFunc, hn, hp, hq])
        (by simp [cronManager.Continue, Cron.AddFunc, hn, hp, hq])
        (by simp [cronManager.Continue, Cron.AddFunc, hn, hp, hq])
      intro e hmem hname
      obtain ⟨j2, h3, h4, _⟩ := hc.entry_job e hmem
      rw [hname, hn] at h3
      simp at h3
      subst h3
      rw [hp] at h4
      simp at h4

theorem Inv_step (parse : Parser) {c : cronManager H} (hc : Inv parse c) (op : Op H) :
    Inv parse (step parse c op) := by
  cases op with
  | Add name plan handler => exact Inv_Add parse hc name plan handler
  | Remove name => exact Inv_Remove parse hc name
  | Pause name => exact Inv_Pause parse hc name
  | Continue name => exact Inv_Continue parse hc name
  | DistributeLockManager lockManager => exact Inv_of_same parse hc rfl rfl rfl

theorem Inv_of_Reachable (parse : Parser) {c : cronManager H} (hc : Reachable parse c) :
    Inv parse c := by
  induction hc with
  | new cc => exact Inv_new parse cc
  | step op _ ih => exact Inv_step parse ih op

theorem Reachable_runOps (parse : Parser) (ops : List (Op H)) :
    ∀ c : cronManager H, Reachable parse c → Reachable parse (runOps parse c ops) := by
  induction ops with
  | nil => intro c hc; exact hc
  | cons op ops ih => intro c hc; exact ih _ (Reachable.step op hc)

/-- C1: `Add` with a name already present returns the `existed` error and
returns the manager itself: registry, engine entries and engine call history
are all as before. -/
theorem Add_existing_unchanged (parse : Parser) (c : cronManager H) (n p : String) (h : H)
    (j : Job H) (hj : c.jobs n = some j) :
    c.Add parse n p h = (c, some (Error.existed n j.ID j.Plan)) ∧
    (c.Add parse n p h).1.Info n = .ok j := by
  simp [cronManager.Add, cronManager.Info, hj]

theorem Add_existing_unchanged_witness :
    mA.jobs "a" = some jobA ∧
    (mA.Add sampleParse "a" "@every 100ms" 0 = (mA, some (Error.existed "a" jobA.ID jobA.Plan)) ∧
     (mA.Add sampleParse "a" "@every 100ms" 0).1.Info "a" = .ok jobA) :=
  ⟨by decide, Add_existing_unchanged sampleParse mA "a" "@every 100ms" 0 jobA (by decide)⟩

/-- C2 (as stated, refuted): after `Add("a", "@every 100ms", h)` and `Pause("a")`
on a new manager, job `a` is paused and its ID is still 1, not the zero value. -/
theorem Pause_keeps_ID_counterexample :
    Reachable sampleParse mAP ∧ mAP.Info "a" = .ok jobAP ∧
    ¬ (jobAP.Paused = true ↔ jobAP.ID = 0) :=
  ⟨Reachable.step (Op.Pause "a") (Reachable.step (Op.Add "a" "@every 100ms" 0) (Reachable.new _)),
   by rfl, by decide⟩

/-- C2 (amended): in every reachable state every registered job carries a
non-zero ID, paused or not; a job that is not paused has an engine entry with
that ID; and `Pause` on a job that is not paused succeeds, sets `Paused` and
leaves `ID` (and every other field) as it was. -/
theorem registered_job_has_ID (parse : Parser) (c : cronManager H) (hc : Reachable parse c)
    (n : String) (j : Job H) (hj : c.jobs n = some j) :
    j.ID ≠ 0 ∧
    (j.Paused = false → ∃ e ∈ c.cr.entries, e.id = j.ID) ∧
    (j.Paused = false →
      (c.Pause n).2 = none ∧ (c.Pause n).1.Info n = .ok { j with Paused := true }) := by
  have hinv := Inv_of_Reachable parse hc
  refine ⟨?_, ?_, ?_⟩
  · have := (hinv.job_wf n j hj).2.2.2.1
    unfold EntryID at *
    omega
  · intro hp
    obtain ⟨e, h1, h2, _⟩ := hinv.job_entry n j hj hp
    exact ⟨e, h1, h2⟩
  · intro hp
    simp [cronManager.Pause, cronManager.Info, setJob, hj, hp]

theorem registered_job_has_ID_witness :
    Reachable sampleParse mA ∧ mA.jobs "a" = some jobA ∧
    (jobA.ID ≠ 0 ∧
    (jobA.Paused = false → ∃ e ∈ mA.cr.entries, e.id = jobA.ID) ∧
    (jobA.Paused = false →
      (mA.Pause "a").2 = none ∧ (mA.Pause "a").1.Info "a" = .ok { jobA with Paused := true })) :=
  ⟨Reachable.step (Op.Add "a" "@every 100ms" 0) (Reachable.new _), by decide,
   registered_job_has_ID sampleParse mA
     (Reachable.step (Op.Add "a" "@every 100ms" 0) (Reachable.new _)) "a" jobA (by decide)⟩

theorem countP_le_one_of_id {A : Type} (P : Entry A → Bool) (i : EntryID) :
    ∀ l : List (Entry A), (l.map Entry.id).Nodup → (∀ e ∈ l, P e = true → e.id = i) →
      l.countP P ≤ 1 := by
  intro l
  induction l with
  | nil => intro _ _; simp
  | cons a l ih =>
    intro hl hP
    simp only [List.map_cons, List.nodup_cons] at hl
    have hP2 : ∀ e ∈ l, P e = true → e.id = i := fun e he => hP e (List.mem_cons_of_mem _ he)
    by_cases ha : P a = true
    · have hai : a.id = i := hP a (List.mem_cons_self _ _) ha
      have hzero : l.countP P = 0 := by
        rw [List.countP_eq_zero]
        intro e he hpe
        apply hl.1
        rw [hai, ← hP2 e he hpe]
        exact List.mem_map_of_mem _ he
      rw [List.countP_cons_of_pos _ _ ha, hzero]
    · rw [List.countP_cons_of_neg _ _ ha]
      exact ih hl.2 hP2

/-- C3: in every reachable state, a registered job that is not paused has
exactly one engine entry whose action is its wrapped handler, and that entry
has the job's ID; a registered job that is paused has no engine entry whose
action is its wrapped handler. -/
theorem entries_match_jobs (parse : Parser) (c : cronManager H) (hc : Reachable parse c)
    (n : String) (j : Job H) (hj : c.jobs n = some j) :
    (j.Paused = false →
      c.cr.entries.countP (fun e => decide (e.action = j.handler)) = 1 ∧
      (∃ e ∈ c.cr.entries, e.action = j.handler ∧ e.id = j.ID) ∧
      (∀ e ∈ c.cr.entries, e.action = j.handler → e.id = j.ID)) ∧
    (j.Paused = true →
      c.cr.entries.countP (fun e => decide (e.action = j.handler)) = 0 ∧
      (∀ e ∈ c.cr.entries, e.action ≠ j.handler)) := by
  have hinv := Inv_of_Reachable parse hc
  have hname : j.handler.name = n := (hinv.job_wf n j hj).2.1
  have hown : ∀ e ∈ c.cr.entries, e.action = j.handler → j.Paused = false ∧ e.id = j.ID := by
    intro e hmem hact
    obtain ⟨j2, h3, h4, h5, _⟩ := hinv.entry_job e hmem
    rw [hact, hname, hj] at h3
    simp at h3
    subst h3
    exact ⟨h4, h5.symm⟩
  constructor
  · intro hp
    obtain ⟨e, h1, h2, h3⟩ := hinv.job_entry n j hj hp
    refine ⟨?_, ⟨e, h1, h3, h2⟩, fun e he ha => (hown e he ha).2⟩
    apply Nat.le_antisymm
    · apply countP_le_one_of_id _ j.ID _ hinv.ids_nodup
      intro e he hpe
      exact (hown e he (by simpa using hpe)).2
    · apply List.countP_pos_iff.2
      exact ⟨e, h1, by simpa using h3⟩
  · intro hp
    have hnone : ∀ e ∈ c.cr.entries, e.action ≠ j.handler := by
      intro e he ha
      have := (hown e he ha).1
      rw [hp] at this
      simp at this
    refine ⟨?_, hnone⟩
    rw [List.countP_eq_zero]
    intro e he
    simpa using hnone e he

theorem entries_match_jobs_witness :
    (Reachable sampleParse mJP ∧ mJP.jobs "j" = some jobJP ∧
    ((jobJP.Paused = false →
      mJP.cr.entries.countP (fun e => decide (e.action = jobJP.handler)) = 1 ∧
      (∃ e ∈ mJP.cr.entries, e.action = jobJP.handler ∧ e.id = jobJP.ID) ∧
      (∀ e ∈ mJP.cr.entries, e.action = jobJP.handler → e.id = jobJP.ID)) ∧
    (jobJP.Paused = true →
      mJP.cr.entries.countP (fun e => decide (e.action = jobJP.handler)) = 0 ∧
      (∀ e ∈ mJP.cr.entries, e.action ≠ jobJP.handler)))) ∧
    (Reachable sampleParse mA ∧ mA.jobs "a" = some jobA ∧ jobA.Paused = false ∧
      mA.cr.entries.countP (fun e => decide (e.action = jobA.handler)) = 1 ∧
      (∃ e ∈ mA.cr.entries, e.action = jobA.handler ∧ e.id = jobA.ID) ∧
      (∀ e ∈ mA.cr.entries, e.action = jobA.handler → e.id = jobA.ID)) :=
  ⟨⟨Reachable_runOps sampleParse _ m0 (Reachable.new _), by decide,
    entries_match_jobs sampleParse mJP (Reachable_runOps sampleParse _ m0 (Reachable.new _))
      "j" jobJP (by decide)⟩,
   Reachable.step (Op.Add "a" "@every 100ms" 0) (Reachable.new _), by decide, by decide,
   (entries_match_jobs sampleParse mA
      (Reachable.step (Op.Add "a" "@every 100ms" 0) (Reachable.new _))
      "a" jobA (by decide)).1 (by decide)⟩

/-- C5: in every reachable state, `Continue` on a registered job that is paused
succeeds: the engine accepts the stored plan and returns an id; the engine
receives exactly the call `AddFunc(Plan, handler)` with the job's stored plan
and stored wrapped handler (the closure built for the job's name) and gains
the corresponding entry; the job gets that id and `Paused = false` with its
other fields kept; every other job is as before. -/
theorem Continue_paused (parse : Parser) (c : cronManager H) (hc : Reachable parse c)
    (n : String) (j : Job H) (hj : c.jobs n = some j) (hp : j.Paused = true) :
    ∃ id, (c.cr.AddFunc parse j.Plan j.handler).2 = .ok id ∧
      (c.Continue parse n).2 = none ∧
      (c.Continue parse n).1.cr = (c.cr.AddFunc parse j.Plan j.handler).1 ∧
      (c.Continue parse n).1.cr.calls = c.cr.calls ++ [Call.addFunc j.Plan j.handler] ∧
      (c.Continue parse n).1.cr.entries =
        c.cr.entries ++ [{ id := id, spec := j.Plan, action := j.handler }] ∧
      (c.Continue parse n).1.Info n = .ok { j with Paused := false, ID := id } ∧
      (∀ m, m ≠ n → (c.Continue parse n).1.jobs m = c.jobs m) ∧
      j.handler.name = n ∧ id ≠ 0 ∧ (∀ e ∈ c.cr.entries, e.id ≠ id) := by
  have hinv := Inv_of_Reachable parse hc
  obtain ⟨_, w2, ⟨sc, hq⟩, _, _⟩ := hinv.job_wf n j hj
  refine ⟨c.cr.nextID + 1, ?_, ?_, ?_, ?_, ?_, ?_, ?_, w2, ?_, ?_⟩
  · simp [Cron.AddFunc, hq]
  · simp [cronManager.Continue, Cron.AddFunc, hj, hp, hq]
  · simp [cronManager.Continue, Cron.AddFunc, hj, hp, hq]
  · simp [cronManager.Continue, Cron.AddFunc, hj, hp, hq]
  · simp [cronManager.Continue, Cron.AddFunc, hj, hp, hq]
  · simp [cronManager.Continue, cronManager.Info, Cron.AddFunc, setJob, hj, hp, hq]
  · intro m hm
    simp [cronManager.Continue, Cron.AddFunc, setJob, hj, hp, hq, hm]
  · simp
  · intro e he
    have := hinv.entry_le e he
    unfold EntryID at *
    omega

theorem Continue_paused_witness :
    Reachable sampleParse mAP ∧ mAP.jobs "a" = some jobAP ∧ jobAP.Paused = true ∧
    ∃ id, (mAP.cr.AddFunc sampleParse jobAP.Plan jobAP.handler).2 = .ok id ∧
      (mAP.Continue sampleParse "a").2 = none ∧
      (mAP.Continue sampleParse "a").1.cr =
        (mAP.cr.AddFunc sampleParse jobAP.Plan jobAP.handler).1 ∧
      (mAP.Continue sampleParse "a").1.cr.calls =
        mAP.cr.calls ++ [Call.addFunc jobAP.Plan jobAP.handler] ∧
      (mAP.Continue sampleParse "a").1.cr.entries =
        mAP.cr.entries ++ [{ id := id, spec := jobAP.Plan, action := jobAP.handler }] ∧
      (mAP.Continue sampleParse "a").1.Info "a" = .ok { jobAP with Paused := false, ID := id } ∧
      (∀ m, m ≠ "a" → (mAP.Continue sampleParse "a").1.jobs m = mAP.jobs m) ∧
      jobAP.handler.name = "a" ∧ id ≠ 0 ∧ (∀ e ∈ mAP.cr.entries, e.id ≠ id) :=
  ⟨Reachable.step (Op.Pause "a") (Reachable.step (Op.Add "a" "@every 100ms" 0) (Reachable.new _)),
   by decide, by decide,
   Continue_paused sampleParse mAP
     (Reachable.step (Op.Pause "a")
       (Reachable.step (Op.Add "a" "@every 100ms" 0) (Reachable.new _)))
     "a" jobAP (by decide) (by decide)⟩

/-- C4: for a registered name, a second `Pause` right after a `Pause` returns
success and returns the manager itself (engine call history included); a
`Continue` on a job that is not paused returns success and returns the manager
itself; a second `Continue` after a successful one does the same, and in every
case the registry and the engine entries after `Continue; Continue` are those
after one `Continue`. -/
theorem Pause_Continue_idempotent (parse : Parser) (c : cronManager H) (n : String)
    (j : Job H) (hj : c.jobs n = some j) :
    (c.Pause n).1.Pause n = ((c.Pause n).1, none) ∧
    (j.Paused = false → c.Continue parse n = (c, none)) ∧
    ((c.Continue parse n).2 = none →
      (c.Continue parse n).1.Continue parse n = ((c.Continue parse n).1, none)) ∧
    ((c.Continue parse n).1.Continue parse n).1.jobs = (c.Continue parse n).1.jobs ∧
    ((c.Continue parse n).1.Continue parse n).1.cr.entries = (c.Continue parse n).1.cr.entries ∧
    ((c.Continue parse n).1.Continue parse n).1.cr.nextID = (c.Continue parse n).1.cr.nextID := by
  refine ⟨?_, ?_, ?_, ?_⟩
  · cases hp : j.Paused <;> simp [cronManager.Pause, hj, hp, setJob]
  · intro hp
    simp [cronManager.Continue, hj, hp]
  · cases hp : j.Paused
    · simp [cronManager.Continue, hj, hp]
    · cases hq : parse j.Plan <;>
        simp [cronManager.Continue, Cron.AddFunc, hj, hp, hq, setJob]
  · cases hp : j.Paused
    · simp [cronManager.Continue, hj, hp]
    · cases hq : parse j.Plan <;>
        simp [cronManager.Continue, Cron.AddFunc, hj, hp, hq, setJob]

theorem Pause_Continue_idempotent_witness :
    mA.jobs "a" = some jobA ∧
    ((mA.Pause "a").1.Pause "a" = ((mA.Pause "a").1, none) ∧
    (jobA.Paused = false → mA.Continue sampleParse "a" = (mA, none)) ∧
    ((mA.Continue sampleParse "a").2 = none →
      (mA.Continue sampleParse "a").1.Continue sampleParse "a" =
        ((mA.Continue sampleParse "a").1, none)) ∧
    ((mA.Continue sampleParse "a").1.Continue sampleParse "a").1.jobs =
      (mA.Continue sampleParse "a").1.jobs ∧
    ((mA.Continue sampleParse "a").1.Continue sampleParse "a").1.cr.entries =
      (mA.Continue sampleParse "a").1.cr.entries ∧
    ((mA.Continue sampleParse "a").1.Continue sampleParse "a").1.cr.nextID =
      (mA.Continue sampleParse "a").1.cr.nextID) :=
  ⟨by decide, Pause_Continue_idempotent sampleParse mA "a" jobA (by decide)⟩

/-- C6: `Remove` of a registered name succeeds, deletes the name (so `Info`
reports not-found) and leaves every other name as it was; for a job that is
not paused the engine receives exactly one call, `Remove` of the job's ID,
after which no entry has that id and the other entries are kept; for a paused
job the engine is untouched (no call, same entries). -/
theorem Remove_registered (c : cronManager H) (n : String) (j : Job H)
    (hj : c.jobs n = some j) :
    (c.Remove n).2 = none ∧
    (c.Remove n).1.Info n = .error (Error.notFound n) ∧
    (∀ m, m ≠ n → (c.Remove n).1.jobs m = c.jobs m) ∧
    (j.Paused = false →
      (c.Remove n).1.cr.calls = c.cr.calls ++ [Call.remove j.ID] ∧
      (∀ e ∈ (c.Remove n).1.cr.entries, e.id ≠ j.ID) ∧
      (∀ e, e ∈ (c.Remove n).1.cr.entries ↔ e ∈ c.cr.entries ∧ e.id ≠ j.ID)) ∧
    (j.Paused = true → (c.Remove n).1.cr = c.cr) := by
  cases hp : j.Paused <;>
    simp [cronManager.Remove, cronManager.Info, Cron.Remove, deleteJob, hj, hp] <;>
    intro m hm <;> simp [hm]

theorem Remove_registered_witness :
    mA.jobs "a" = some jobA ∧
    ((mA.Remove "a").2 = none ∧
    (mA.Remove "a").1.Info "a" = .error (Error.notFound "a") ∧
    (∀ m, m ≠ "a" → (mA.Remove "a").1.jobs m = mA.jobs m) ∧
    (jobA.Paused = false →
      (mA.Remove "a").1.cr.calls = mA.cr.calls ++ [Call.remove jobA.ID] ∧
      (∀ e ∈ (mA.Remove "a").1.cr.entries, e.id ≠ jobA.ID) ∧
      (∀ e, e ∈ (mA.Remove "a").1.cr.entries ↔ e ∈ mA.cr.entries ∧ e.id ≠ jobA.ID)) ∧
    (jobA.Paused = true → (mA.Remove "a").1.cr = mA.cr)) :=
  ⟨by decide, Remove_registered mA "a" jobA (by decide)⟩

/-- C7: `Remove`, `Pause`, `Continue` and `Info` on a name that is not
registered return the not-found error and (for the three that change state)
the manager itself; `Add` with a plan the engine parser rejects returns an
error and leaves the registry, the engine entries and the id counter as they
were, so `Info` still reports not-found for a name that was not registered;
`Remove`, `Pause` and `Info` on a registered name return no error. -/
theorem registration_errors (parse : Parser) (c : cronManager H) (n p : String) (h : H) :
    (c.jobs n = none →
      c.Remove n = (c, some (Error.notFound n)) ∧
      c.Pause n = (c, some (Error.notFound n)) ∧
      c.Continue parse n = (c, some (Error.notFound n)) ∧
      c.Info n = .error (Error.notFound n)) ∧
    (∀ err, parse p = .error err →
      (c.Add parse n p h).2 ≠ none ∧
      (c.Add parse n p h).1.jobs = c.jobs ∧
      (c.Add parse n p h).1.cr.entries = c.cr.entries ∧
      (c.Add parse n p h).1.cr.nextID = c.cr.nextID ∧
      (c.jobs n = none →
        (c.Add parse n p h).2 = some (Error.addFailed err) ∧
        (c.Add parse n p h).1.Info n = .error (Error.notFound n))) ∧
    (∀ j, c.jobs n = some j →
      (c.Remove n).2 = none ∧ (c.Pause n).2 = none ∧ c.Info n = .ok j) := by
  refine ⟨?_, ?_, ?_⟩
  · intro hn
    simp [cronManager.Remove, cronManager.Pause, cronManager.Continue, cronManager.Info, hn]
  · intro err he
    cases hn : c.jobs n <;>
      simp [cronManager.Add, cronManager.Info, Cron.AddFunc, hn, he]
  · intro j hj
    cases hp : j.Paused <;>
      simp [cronManager.Remove, cronManager.Pause, cronManager.Info, hj, hp]

theorem registration_errors_witness :
    (mA.Remove "b" = (mA, some (Error.notFound "b")) ∧
      mA.Pause "b" = (mA, some (Error.notFound "b")) ∧
      mA.Continue sampleParse "b" = (mA, some (Error.notFound "b")) ∧
      mA.Info "b" = .error (Error.notFound "b")) ∧
    ((mA.Add sampleParse "b" "every day" 0).2 = some (Error.addFailed "unrecognized schedule: every day") ∧
      (mA.Add sampleParse "b" "every day" 0).1.Info "b" = .error (Error.notFound "b")) ∧
    ((mA.Remove "a").2 = none ∧ (mA.Pause "a").2 = none ∧ mA.Info "a" = .ok jobA) :=
  ⟨(registration_errors sampleParse mA "b" "every day" 0).1 (by decide),
   ((registration_errors sampleParse mA "b" "every day" 0).2.1
      "unrecognized schedule: every day" (by simp [sampleParse])).2.2.2.2 (by decide),
   (registration_errors sampleParse mA "a" "every day" 0).2.2 jobA (by decide)⟩

/-! ### The wrapped handler -/

theorem foldl_fire_fst (fs : List (Firing H)) :
    ∀ s : cronManager H × List (Event H), (fs.foldl fire s).1 = s.1 := by
  induction fs with
  | nil => intro s; rfl
  | cons f fs ih => intro s; rw [List.foldl_cons, ih]; rfl

theorem foldl_fire_skip (fs : List (Firing H)) :
    ∀ s : cronManager H × List (Event H), s.1.lockedOut = true →
      (fs.foldl fire s).2.filter Event.isInvoke = s.2.filter Event.isInvoke := by
  induction fs with
  | nil => intro s _; rfl
  | cons f fs ih =>
    intro s hs
    rw [List.foldl_cons, ih (fire s f) hs]
    simp [fire, JobHandler.run, hs, Event.isInvoke]

/-- C8: one run of the wrapped handler invokes the user handler exactly once
when no lock manager is configured or the lock manager holds the lock; when a
lock manager is configured and does not hold the lock, the run is one debug
log line and no invocation.  Firings never change the manager, so `Info`
answers as before after any number of them, and while the lock is not held
they add no invocation to the trace. -/
theorem wrapped_handler_lock_gate (c : cronManager H) (trace : List (Event H)) :
    (∀ (w : JobHandler H) (startTs stopTs : Time) (stack : String),
      (c.distributeLockManager = none ∨ c.distributeLockManager = some { HasLock := true }) →
      (w.run c startTs stopTs stack).filter Event.isInvoke = [Event.invoke w.handler]) ∧
    (∀ (w : JobHandler H) (startTs stopTs : Time) (stack : String),
      c.distributeLockManager = some { HasLock := false } →
      w.run c startTs stopTs stack =
        [Event.log Logger.global Level.debug
          "cron job [%s] can not start because it doesn't get the lock" [LogArg.str w.name]] ∧
      (w.run c startTs stopTs stack).filter Event.isInvoke = []) ∧
    (∀ fs : List (Firing H), (fs.foldl fire (c, trace)).1 = c ∧
      ∀ n, (fs.foldl fire (c, trace)).1.Info n = c.Info n) ∧
    (∀ fs : List (Firing H), c.distributeLockManager = some { HasLock := false } →
      (fs.foldl fire (c, trace)).2.filter Event.isInvoke = trace.filter Event.isInvoke) := by
  refine ⟨?_, ?_, ?_, ?_⟩
  · intro w startTs stopTs stack hl
    have hlo : c.lockedOut = false := by
      rcases hl with h | h <;> simp [cronManager.lockedOut, h]
    cases hr : c.cc w.handler <;> simp [JobHandler.run, hlo, hr, Event.isInvoke]
  · intro w startTs stopTs stack hl
    have hlo : c.lockedOut = true := by simp [cronManager.lockedOut, hl]
    simp [JobHandler.run, hlo, Event.isInvoke]
  · intro fs
    have h := foldl_fire_fst fs (c, trace)
    exact ⟨h, fun n => by rw [h]⟩
  · intro fs hl
    exact foldl_fire_skip fs (c, trace) (by simp [cronManager.lockedOut, hl])

theorem wrapped_handler_lock_gate_witness :
    (JobHandler.run mB 10 25 "stk" { name := "a", handler := 0 }).filter Event.isInvoke =
      [Event.invoke 0] ∧
    ((JobHandler.run mBL 10 25 "stk" { name := "a", handler := 0 } =
        [Event.log Logger.global Level.debug
          "cron job [%s] can not start because it doesn't get the lock" [LogArg.str "a"]]) ∧
      (JobHandler.run mBL 10 25 "stk" { name := "a", handler := 0 }).filter Event.isInvoke = []) ∧
    (([⟨⟨"a", 0⟩, 10, 25, "stk"⟩, ⟨⟨"b", 1⟩, 30, 45, "stk"⟩].foldl fire (mBL, [])).2.filter
      Event.isInvoke = []) :=
  ⟨(wrapped_handler_lock_gate mB []).1 _ 10 25 "stk" (Or.inl (by decide)),
   (wrapped_handler_lock_gate mBL []).2.1 _ 10 25 "stk" (by decide),
   (wrapped_handler_lock_gate mBL []).2.2.2 _ (by decide)⟩

/-- C9 (the code at a failing input): job `b` of `mB` has a handler that fails
with `boom`.  One run of its wrapped handler returns the four events below; the
error log call is made with a format of three verbs and the two arguments
`err` and `debug.Stack()`: the job name is not among them. -/
theorem failed_job_log_omits_name :
    mB.jobs "b" = some { ID := 2, Name := "b", Plan := "@every 1s",
                         handler := { name := "b", handler := 1 }, Paused := false } ∧
    JobHandler.run mB 10 25 "stk" { name := "b", handler := 1 } =
      [Event.log Logger.module Level.debug "cron job [%s] running" [LogArg.str "b"],
       Event.invoke 1,
       Event.log Logger.module Level.error "cron job [%s] failed, Err: %v, Stack: %s"
         [LogArg.err "boom", LogArg.stack "stk"],
       Event.log Logger.module Level.debug "cron job [%s] stopped, elapse %s"
         [LogArg.str "b", LogArg.elapsed 15]] ∧
    (∀ format args,
      Event.log Logger.module Level.error format args ∈
          JobHandler.run mB 10 25 "stk" { name := "b", handler := 1 } →
        LogArg.str "b" ∉ args) := by
  refine ⟨by decide, by decide, ?_⟩
  intro format args hmem
  have hrun : JobHandler.run mB 10 25 "stk" { name := "b", handler := 1 } =
      [Event.log Logger.module Level.debug "cron job [%s] running" [LogArg.str "b"],
       Event.invoke 1,
       Event.log Logger.module Level.error "cron job [%s] failed, Err: %v, Stack: %s"
         [LogArg.err "boom", LogArg.stack "stk"],
       Event.log Logger.module Level.debug "cron job [%s] stopped, elapse %s"
         [LogArg.str "b", LogArg.elapsed 15]] := by decide
  rw [hrun] at hmem
  simp at hmem
  rw [hmem.2]
  simp

/-! ### `Job.Next` -/

theorem nextLoop_length (sc : Schedule) : ∀ (k : Nat) (t : Time), (nextLoop sc k t).length = k := by
  intro k
  induction k with
  | zero => intro t; rfl
  | succ k ih => intro t; simp [nextLoop, ih]

theorem nextLoop_get (sc : Schedule) :
    ∀ (k i : Nat) (t : Time), i < k → (nextLoop sc k t)[i]? = some (sc^[i + 1] t) := by
  intro k
  induction k with
  | zero => intro i t hi; omega
  | succ k ih =>
    intro i t hi
    cases i with
    | zero => simp [nextLoop]
    | succ i =>
      simp only [nextLoop, List.getElem?_cons_succ]
      rw [ih i (sc t) (by omega)]
      simp [Function.iterate_succ_apply]

theorem nextLoop_gt (sc : Schedule) (hsc : ∀ t, t < sc t) :
    ∀ (k : Nat) (t : Time), ∀ x ∈ nextLoop sc k t, t < x := by
  intro k
  induction k with
  | zero => intro t x hx; simp [nextLoop] at hx
  | succ k ih =>
    intro t x hx
    simp only [nextLoop, List.mem_cons] at hx
    rcases hx with h | h
    · rw [h]; exact hsc t
    · exact Nat.lt_trans (hsc t) (ih (sc t) x h)

theorem nextLoop_pairwise (sc : Schedule) (hsc : ∀ t, t < sc t) :
    ∀ (k : Nat) (t : Time), (nextLoop sc k t).Pairwise (fun a b => a < b) := by
  intro k
  induction k with
  | zero => intro t; simp [nextLoop]
  | succ k ih =>
    intro t
    simp only [nextLoop, List.pairwise_cons]
    exact ⟨nextLoop_gt sc hsc k (sc t), ih (sc t)⟩

/-- C10: when the plan parses to `next` with `next t > t` for every `t`,
`Job.Next n` for `n ≥ 0` returns a list `r` of length `n` and no error, with
`r[0] = next now` and `r[i+1] = next r[i]` (so `r[i]` is `next` applied `i+1`
times to `now`), strictly increasing, every element after `now`; the result is
the same whatever the `ID` and `Paused` fields are; when the plan does not
parse, `Job.Next` returns the parse error. -/
theorem Job_Next_spec (parser : Parser) (now : Time) (job : Job H) :
    (∀ next : Schedule, parser job.Plan = .ok next → (∀ t, t < next t) → ∀ n : Nat,
      ∃ r, job.Next parser now (n : Int) = .ok r ∧
        r.length = n ∧
        (0 < n → r[0]? = some (next now)) ∧
        (∀ i, i + 1 < n → ∃ a, r[i]? = some a ∧ r[i + 1]? = some (next a)) ∧
        (∀ i, i < n → r[i]? = some (next^[i + 1] now)) ∧
        r.Pairwise (fun a b => a < b) ∧
        (∀ t ∈ r, now < t)) ∧
    (∀ (n : Int) (id : EntryID) (paused : Bool),
      Job.Next parser now { job with ID := id, Paused := paused } n = job.Next parser now n) ∧
    (∀ (err : String) (n : Int), parser job.Plan = .error err →
      job.Next parser now n = .err err) := by
  refine ⟨?_, ?_, ?_⟩
  · intro next hparse hnext n
    refine ⟨nextLoop next n now, ?_, nextLoop_length next n now, ?_, ?_, ?_,
      nextLoop_pairwise next hnext n now, nextLoop_gt next hnext n now⟩
    · simp [Job.Next, hparse]
    · intro hn
      simpa using nextLoop_get next n 0 now hn
    · intro i hi
      refine ⟨next^[i + 1] now, nextLoop_get next n i now (by omega), ?_⟩
      rw [nextLoop_get next n (i + 1) now hi, Function.iterate_succ_apply' next (i + 1)]
    · intro i hi
      exact nextLoop_get next n i now hi
  · intro n id paused
    rfl
  · intro err n hparse
    simp [Job.Next, hparse]

theorem Job_Next_spec_witness :
    sampleParse jobH.Plan = .ok hourly ∧ (∀ t, t < hourly t) ∧
    jobH.Next sampleParse 1000 3 = .ok [3600000, 7200000, 10800000] ∧
    (∃ r, jobH.Next sampleParse 1000 ((3 : Nat) : Int) = .ok r ∧
        r.length = 3 ∧
        (0 < 3 → r[0]? = some (hourly 1000)) ∧
        (∀ i, i + 1 < 3 → ∃ a, r[i]? = some a ∧ r[i + 1]? = some (hourly a)) ∧
        (∀ i, i < 3 → r[i]? = some (hourly^[i + 1] 1000)) ∧
        r.Pairwise (fun a b => a < b) ∧
        (∀ t ∈ r, 1000 < t)) ∧
    ({ jobH with Plan := "every hour" } : Job Nat).Next sampleParse 1000 3 =
      .err "unrecognized schedule: every hour" :=
  ⟨by rfl, fun t => by unfold hourly Time; omega, by decide,
   (Job_Next_spec sampleParse 1000 jobH).1 hourly (by rfl)
     (fun t => by unfold hourly Time; omega) 3,
   (Job_Next_spec sampleParse 1000 { jobH with Plan := "every hour" }).2.2
     "unrecognized schedule: every hour" 3 (by simp [sampleParse])⟩

end cron
